import Mathlib

set_option maxHeartbeats 1000000

/-!
Verification development for the doc-comment synchronization tool
(src/main.rs).  The tool copies documentation from C declarations into
Rust declarations that carry a matching doc alias.

Modelling conventions:
* a text buffer is a list of characters; its on-disk form is the list of
  its UTF-8 bytes (`encodeStr`), and all offsets computed by the tool are
  byte offsets into that form;
* the two external parsers are out of scope: the scanner consumes their
  output, modelled as declarations with spans and already-classified
  attributes, and the renderer consumes an XML node tree;
* fallible operations return `Option`.
-/

/-- UTF-8 encoding of one character as its list of byte values. -/
def encodeChar (c : Char) : List Nat :=
  let n := c.toNat
  if n < 0x80 then [n]
  else if n < 0x800 then [0xC0 + n / 64, 0x80 + n % 64]
  else if n < 0x10000 then [0xE0 + n / 4096, 0x80 + n / 64 % 64, 0x80 + n % 64]
  else [0xF0 + n / 262144, 0x80 + n / 4096 % 64, 0x80 + n / 64 % 64, 0x80 + n % 64]

/-- UTF-8 encoding of a string (character list) as a byte list. -/
def encodeStr (s : List Char) : List Nat :=
  (s.map encodeChar).flatten

/-- Byte length of a string, as measured by the byte offsets of the tool. -/
def byteLen (s : List Char) : Nat :=
  (encodeStr s).length

/-- Model of Rust `str::lines` on newline-separated text: split at each
newline character; a trailing newline does not yield a final empty line. -/
def rlines : List Char → List (List Char)
  | [] => []
  | c :: rest =>
    if c = '\n' then [] :: rlines rest
    else
      match rlines rest with
      | [] => [[c]]
      | l :: ls => (c :: l) :: ls

/-- Byte offset of the start of line `i` (0-based) inside a buffer; this is
the model of the pointer arithmetic in `Source::position`. -/
def lineStart : List Char → Nat → Nat
  | _, 0 => 0
  | [], _ + 1 => 0
  | c :: rest, i + 1 =>
    if c = '\n' then 1 + lineStart rest i
    else (encodeChar c).length + lineStart rest (i + 1)

/-- A parser position: 1-indexed line, 0-indexed column in characters. -/
structure LineColumn where
  line : Nat
  column : Nat
  deriving DecidableEq, Repr

/-- A parser span: start and end positions. -/
structure Span where
  start : LineColumn
  stop : LineColumn
  deriving DecidableEq, Repr

/-- A half-open byte range `[start, stop)` into a buffer. -/
structure ByteRange where
  start : Nat
  stop : Nat
  deriving DecidableEq, Repr

/-- Membership of a byte offset in a half-open byte range. -/
def ByteRange.mem (r : ByteRange) (n : Nat) : Prop :=
  r.start ≤ n ∧ n < r.stop

/-- Two byte ranges are non-overlapping when no byte offset lies in both. -/
def ByteRange.Disjoint (a b : ByteRange) : Prop :=
  ∀ n, ¬(a.mem n ∧ b.mem n)

/-- Two byte ranges are separated when one ends at or before the other
starts (this is the order-compatible strengthening of `Disjoint`). -/
def ByteRange.Sep (a b : ByteRange) : Prop :=
  a.stop ≤ b.start ∨ b.stop ≤ a.start

instance (a b : ByteRange) : Decidable (a.Disjoint b) :=
  decidable_of_iff
    (b.stop ≤ a.start ∨ a.stop ≤ b.start ∨ a.stop ≤ a.start ∨ b.stop ≤ b.start)
    (by
      constructor
      · rintro (h | h | h | h) n ⟨⟨ha1, ha2⟩, ⟨hb1, hb2⟩⟩ <;> omega
      · intro h
        by_contra hc
        push_neg at hc
        obtain ⟨h1, h2, h3, h4⟩ := hc
        exact h (max a.start b.start)
          ⟨⟨le_max_left _ _, max_lt h3 h2⟩, ⟨le_max_right _ _, max_lt h1 h4⟩⟩)

/-- The Source struct: the full buffer.  Its line slices are derived from
the buffer exactly as `source.lines().collect()` does in main.rs. -/
structure Source where
  full : List Char

/-- The precomputed line list of a source buffer. -/
def Source.lines (s : Source) : List (List Char) :=
  rlines s.full

/-- Model of `Source::position`: resolve a 1-indexed line and a character
column to a byte offset; `none` when the line is out of bounds; the column
is clamped to the end of the line. -/
def Source.position (s : Source) (pos : LineColumn) : Option Nat :=
  (s.lines.get? (pos.line - 1)).map fun l =>
    lineStart s.full (pos.line - 1) + byteLen (l.take pos.column)

/-- Model of `Source::range_for`: compose two position lookups. -/
def Source.rangeFor (s : Source) (sp : Span) : Option ByteRange := do
  let a ← s.position sp.start
  let b ← s.position sp.stop
  pure ⟨a, b⟩

/-- A parsed attribute as consumed by the scanner: a well-formed doc alias,
a doc-comment annotation carrying the span of its literal, or anything else
(a malformed alias or doc attribute parses to this last case). -/
inductive Attr where
  | docAlias (name : String)
  | docComment (sp : Span)
  | other
  deriving DecidableEq, Repr

namespace DocAlias

/-- Model of `DocAlias::find`: first attribute that is a well-formed
doc-alias annotation. -/
def find (attrs : List Attr) : Option String :=
  attrs.findSome? fun a =>
    match a with
    | .docAlias s => some s
    | _ => none

end DocAlias

namespace DocComment

/-- Model of `DocComment::find`: first attribute that is a doc-comment
annotation, returning the span of its string literal. -/
def find (attrs : List Attr) : Option Span :=
  attrs.findSome? fun a =>
    match a with
    | .docComment sp => some sp
    | _ => none

end DocComment

/-- A declaration as handed to the scanner by the parser. -/
structure Decl where
  span : Span
  attrs : List Attr
  deriving DecidableEq, Repr

/-- The per-file map from alias to recorded insertion sites, in insertion
order (model of the `doc_locations` hash map). -/
abbrev Locs := List (String × List (Nat × ByteRange))

/-- Model of `entry(alias).or_default()` followed by pushing sites onto the
entry's vector. -/
def pushLoc (locs : Locs) (key : String) (sites : List (Nat × ByteRange)) : Locs :=
  match locs with
  | [] => [(key, sites)]
  | (k, ss) :: rest =>
    if k = key then (k, ss ++ sites) :: rest
    else (k, ss) :: pushLoc rest key sites

/-- Model of `DocVisitor::try_replace_docs` for one declaration: when an
alias is present, record a replacement site over the doc comment when one
resolves, otherwise a zero-length insertion site at the declaration start
when that resolves, otherwise nothing (but the alias entry is created). -/
def tryReplaceDocs (src : Source) (locs : Locs) (span : Span) (attrs : List Attr) : Locs :=
  match DocAlias.find attrs with
  | none => locs
  | some key =>
    let docSites : List (Nat × ByteRange) :=
      match DocComment.find attrs with
      | some sp =>
        match src.rangeFor sp with
        | some r => [(sp.start.column, r)]
        | none => []
      | none => []
    match docSites with
    | [] =>
      match src.position span.start with
      | some p => pushLoc locs key [(span.start.column, ⟨p, p⟩)]
      | none => pushLoc locs key []
    | _ => pushLoc locs key docSites

/-- The visitor pass over one file: fold `tryReplaceDocs` over every
declaration in visit order, starting from an empty map. -/
def scanFile (src : Source) (decls : List Decl) : Locs :=
  decls.foldl (fun locs d => tryReplaceDocs src locs d.span d.attrs) []

/-- All recorded sites of a file, across every alias. -/
def allSites (locs : Locs) : List (Nat × ByteRange) :=
  locs.flatMap (·.2)

/-- Join a list of lines with newline separators (Rust `join("\\n")`). -/
def joinNl : List (List Char) → List Char
  | [] => []
  | [l] => l
  | l :: ls => l ++ '\n' :: joinNl ls

/-- Per-site reindentation of a rendered body (main.rs lines 247-266):
with a positive column, prefix every line after the first with that many
spaces, join with newlines, and append a newline plus that many spaces;
with column zero use the body verbatim. -/
def reindent (column : Nat) (doc : List Char) : List Char :=
  if 0 < column then
    (joinNl
      ((rlines doc).enum.map fun p =>
        if 0 < p.1 then List.replicate column ' ' ++ p.2 else p.2))
      ++ '\n' :: List.replicate column ' '
  else doc

/-- Model of `String::replace_range` on the byte buffer. -/
def replaceRange (buf text : List Nat) (a b : Nat) : List Nat :=
  buf.take a ++ text ++ buf.drop b

/-- The replacement texts generated for one alias entry of a file: nothing
when the alias resolves to no body or an empty body, otherwise one
reindented body per recorded site. -/
def entryReps (cDocs : String → Option (List Char)) (e : String × List (Nat × ByteRange)) :
    List (List Nat × ByteRange) :=
  match cDocs e.1 with
  | some doc =>
    if doc.isEmpty then []
    else e.2.map fun site => (encodeStr (reindent site.1 doc), site.2)
  | none => []

/-- All replacements collected for one file, in map iteration order. -/
def fileReplacements (cDocs : String → Option (List Char)) (locs : Locs) :
    List (List Nat × ByteRange) :=
  locs.flatMap (entryReps cDocs)

/-- The changed flag: set as soon as some alias of the file resolves to a
non-empty body (main.rs line 246), independently of its site list. -/
def changedFlag (cDocs : String → Option (List Char)) (locs : Locs) : Bool :=
  locs.any fun e =>
    match cDocs e.1 with
    | some doc => !doc.isEmpty
    | none => false

/-- Order used by `sort_by_key(range.start)`. -/
def byStart (a b : List Nat × ByteRange) : Prop :=
  a.2.start ≤ b.2.start

instance : DecidableRel byStart :=
  fun a b => inferInstanceAs (Decidable (a.2.start ≤ b.2.start))

/-- Stable sort of the replacements by range start; Rust sort_by_key is a
stable sort, and a stable sort by key is unique, modelled here by insertion
sort (which keeps equal keys in input order, as sort_by_key does). -/
def sortReps (reps : List (List Nat × ByteRange)) : List (List Nat × ByteRange) :=
  reps.insertionSort byStart

/-- The splice pass of main: sort ascending by range start, then apply each
replacement in descending start order with `replace_range`. -/
def spliceAll (buf : List Nat) (reps : List (List Nat × ByteRange)) : List Nat :=
  (sortReps reps).reverse.foldl (fun b r => replaceRange b r.1 r.2.start r.2.stop) buf

/-- Processing of one primary file (main.rs lines 239-275): collect the
replacements, splice them, and report the changed flag. -/
def processFile (cDocs : String → Option (List Char)) (src : List Nat) (locs : Locs) :
    List Nat × Bool :=
  (spliceAll src (fileReplacements cDocs locs), changedFlag cDocs locs)

/-- Decision of main.rs lines 276-283: in in-place mode a file is written
back exactly when its changed flag is set. -/
def shouldWrite (inPlace changed : Bool) : Bool :=
  inPlace && changed

/-- Reference one-shot splice semantics: given replacements sorted by
range start, cut the original buffer at the original offsets and lay the
replacement texts between the kept segments. -/
def spliceFrom (buf : List Nat) (i : Nat) : List (List Nat × ByteRange) → List Nat
  | [] => buf.drop i
  | r :: rest => (buf.drop i).take (r.2.start - i) ++ r.1 ++ spliceFrom buf r.2.stop rest

/-- Order on parser positions: earlier line, or same line and
less-or-equal column. -/
def LCle (p q : LineColumn) : Prop :=
  p.line < q.line ∨ (p.line = q.line ∧ p.column ≤ q.column)

instance (p q : LineColumn) : Decidable (LCle p q) :=
  inferInstanceAs (Decidable (p.line < q.line ∨ (p.line = q.line ∧ p.column ≤ q.column)))

/-- A well-formed parser span: 1-indexed start line and ordered endpoints. -/
def Span.WF (sp : Span) : Prop :=
  1 ≤ sp.start.line ∧ LCle sp.start sp.stop

instance (sp : Span) : Decidable sp.WF :=
  inferInstanceAs (Decidable (1 ≤ sp.start.line ∧ LCle sp.start sp.stop))

/-- The zero-length insertion site at the declaration start, when the
declaration start resolves. -/
def startSite (src : Source) (span : Span) : List (Nat × ByteRange) :=
  match src.position span.start with
  | some p => [(span.start.column, ⟨p, p⟩)]
  | none => []

/-- The sites a single declaration contributes to its alias entry. -/
def declSites (src : Source) (span : Span) (attrs : List Attr) : List (Nat × ByteRange) :=
  match DocAlias.find attrs with
  | none => []
  | some _ =>
    match DocComment.find attrs with
    | some sp =>
      match src.rangeFor sp with
      | some r => [(sp.start.column, r)]
      | none => startSite src span
    | none => startSite src span

instance (a b : ByteRange) : Decidable (a.Sep b) :=
  inferInstanceAs (Decidable (_ ∨ _))

instance : IsTotal (List Nat × ByteRange) byStart :=
  ⟨fun a b => Nat.le_total a.2.start b.2.start⟩

instance : IsTrans (List Nat × ByteRange) byStart :=
  ⟨fun _ _ _ h1 h2 => Nat.le_trans h1 h2⟩

/-- An XML node as delivered by the external XML parser: an element with a
tag and children, or a text node. -/
inductive XmlNode where
  | element (tag : String) (children : List XmlNode)
  | text (s : String)
  deriving Repr

/-- The children of a node. -/
def childrenOf : XmlNode → List XmlNode
  | .element _ cs => cs
  | .text _ => []

/-- Whether a node is an element with the given tag (`has_tag_name`). -/
def hasTag (t : String) : XmlNode → Bool
  | .element tag _ => tag == t
  | .text _ => false

/-- Model of roxmltree `Node::text`: a text node yields its own content,
an element yields its first child's content when that child is text. -/
def XmlNode.textOf : XmlNode → Option String
  | .text s => some s
  | .element _ (.text s :: _) => some s
  | .element _ _ => none

mutual

/-- Whether any (strict or reflexive) descendant of the node is text. -/
def XmlNode.hasTextDesc : XmlNode → Bool
  | .text _ => true
  | .element _ cs => hasTextDescList cs

/-- Whether any node of any subtree in the list is a text node. -/
def hasTextDescList : List XmlNode → Bool
  | [] => false
  | x :: xs => XmlNode.hasTextDesc x || hasTextDescList xs

end

/-- Inline markdown content of one paragraph. -/
inductive Inline where
  | str (s : String)
  | code (s : String)
  | listItems (items : List (List Inline))
  deriving Repr

/-- A markdown element written to the output (the writer of the markdown
library is modelled symbolically by the sequence of elements written). -/
inductive MdElem where
  | para (xs : List Inline)
  | heading (level : Nat) (xs : List Inline)
  deriving Repr

/-- Whether an element is a heading. -/
def isHeading : MdElem → Bool
  | .heading _ _ => true
  | .para _ => false

/-- Collect an optional result per element, failing when any fails. -/
def mapOpt {a b : Type} (f : a -> Option b) : List a -> Option (List b)
  | [] => some []
  | x :: xs =>
    match f x, mapOpt f xs with
    | some y, some ys => some (y :: ys)
    | _, _ => none

/-- The inline fold of `get_paragraphs` over one Para's children: text
appends verbatim, an emphasized element with direct text appends as inline
code, another element with direct text appends its text, and an element
without direct text panics (modelled as `none`) as soon as any descendant
is a text node, since the code unwraps the absent direct text. -/
def paraFold (children : List XmlNode) : Option (List Inline) :=
  children.foldl
    (fun acc c =>
      match acc with
      | none => none
      | some item =>
        match c with
        | .text s => some (item ++ [.str s])
        | .element tag cs =>
          match XmlNode.textOf (.element tag cs) with
          | some t =>
            if tag = "emphasized" then some (item ++ [.code t])
            else some (item ++ [.str t])
          | none => if hasTextDescList cs then none else some item)
    (some [Inline.str ""])

/-- Model of `get_paragraphs`: one inline list per Para child. -/
def getParagraphs (n : XmlNode) : Option (List (List Inline)) :=
  mapOpt (fun p => paraFold (childrenOf p)) ((childrenOf n).filter (hasTag "Para"))

/-- First child with the given tag (`children().find`). -/
def findChild (n : XmlNode) (t : String) : Option XmlNode :=
  (childrenOf n).find? (hasTag t)

/-- Appending one Discussion child's paragraphs to a parameter list item. -/
def paramDiscussion (item : List Inline) (n : XmlNode) : Option (List Inline) :=
  if hasTag "Discussion" n then
    (getParagraphs n).map fun ps =>
      ps.foldl (fun it para => it ++ [Inline.str "\n\n "] ++ para) item
  else
    some item

/-- The list items built from the Parameter children: one item per named
parameter (its name as inline code followed by its discussions), unnamed
parameters are skipped. -/
def paramItems (params : XmlNode) : Option (List (List Inline)) :=
  ((childrenOf params).filter (hasTag "Parameter")).foldlM
    (fun items param =>
      match (findChild param "Name").bind XmlNode.textOf with
      | some name => do
        let item ← (childrenOf param).foldlM paramDiscussion [Inline.code name]
        pure (items ++ [item])
      | none => pure items)
    []

/-- The markdown written for the Abstract section (nothing when absent). -/
def abstractElems (root : XmlNode) : Option (List MdElem) :=
  match findChild root "Abstract" with
  | some a => (getParagraphs a).map (·.map MdElem.para)
  | none => some []

/-- The markdown written for all Discussion sections, in document order. -/
def discussionElems (root : XmlNode) : Option (List MdElem) :=
  (mapOpt (fun d => (getParagraphs d).map (·.map MdElem.para))
    ((childrenOf root).filter (hasTag "Discussion"))).map List.flatten

/-- The markdown written for the Parameters section: a level-1 heading and
the item list, only when at least one parameter is named. -/
def parametersElems (root : XmlNode) : Option (List MdElem) :=
  match findChild root "Parameters" with
  | some params =>
    (paramItems params).map fun items =>
      if items.isEmpty then []
      else [MdElem.heading 1 [.str "Parameters"],
            MdElem.para [.listItems items, .str "\n"]]
  | none => some []

/-- The markdown written for the return-value section: the plain written
string "Returns" (a paragraph, not a heading) followed by the result
discussion's paragraphs. -/
def returnsElems (root : XmlNode) : Option (List MdElem) :=
  match findChild root "ResultDiscussion" with
  | some ret => (getParagraphs ret).map fun ps =>
      MdElem.para [.str "Returns"] :: ps.map MdElem.para
  | none => some []

/-- Model of `xml_to_markdown` as the sequence of markdown elements
written: abstract, then every discussion, then the parameter section,
then the return section; a rendering panic is `none`. -/
def xmlToMarkdown (root : XmlNode) : Option (List MdElem) := do
  let a ← abstractElems root
  let d ← discussionElems root
  let p ← parametersElems root
  let r ← returnsElems root
  pure (a ++ d ++ p ++ r)

/-- Modelled from the spec: the declaration tree the (out-of-scope) Rust
parser produces for the primary buffer "  fn f" — one declaration spanning
line 1 columns 2 to 6, carrying the alias annotation and no existing
documentation comment, so its site is a pure insertion at column 2. -/
def firstRunDecls : List Decl :=
  [⟨⟨⟨1, 2⟩, ⟨1, 6⟩⟩, [.docAlias "f"]⟩]

/-- Modelled from the spec: the declaration tree for the first run's
output buffer "  /// D\n  fn f" — the same declaration, now on line 2 and
carrying a documentation-comment annotation whose range spans the whole
comment block on line 1, columns 2 to 7 (spec, InsertionSite: "the range
spans that whole comment block"). -/
def secondRunDecls : List Decl :=
  [⟨⟨⟨2, 2⟩, ⟨2, 6⟩⟩, [.docAlias "f", .docComment ⟨⟨1, 2⟩, ⟨1, 7⟩⟩]⟩]

theorem ByteRange.disjoint_iff (a b : ByteRange) :
    a.Disjoint b ↔
      (a.stop ≤ b.start ∨ b.stop ≤ a.start ∨ a.stop ≤ a.start ∨ b.stop ≤ b.start) := by
  constructor
  · intro h
    by_contra hc
    push_neg at hc
    obtain ⟨h1, h2, h3, h4⟩ := hc
    exact h (max a.start b.start)
      ⟨⟨le_max_left _ _, max_lt h3 h1⟩, ⟨le_max_right _ _, max_lt h2 h4⟩⟩
  · rintro (h | h | h | h) n ⟨⟨ha1, ha2⟩, ⟨hb1, hb2⟩⟩ <;> omega

theorem ByteRange.disjoint_symm {a b : ByteRange} (h : a.Disjoint b) : b.Disjoint a :=
  fun n hn => h n ⟨hn.2, hn.1⟩

theorem encodeStr_nil : encodeStr [] = [] := rfl

theorem encodeStr_cons (c : Char) (s : List Char) :
    encodeStr (c :: s) = encodeChar c ++ encodeStr s := by
  simp [encodeStr]

theorem encodeStr_append (a b : List Char) :
    encodeStr (a ++ b) = encodeStr a ++ encodeStr b := by
  simp [encodeStr]

theorem byteLen_nil : byteLen [] = 0 := rfl

theorem byteLen_cons (c : Char) (s : List Char) :
    byteLen (c :: s) = (encodeChar c).length + byteLen s := by
  simp [byteLen, encodeStr_cons]

theorem byteLen_append (a b : List Char) :
    byteLen (a ++ b) = byteLen a + byteLen b := by
  simp [byteLen, encodeStr_append]

theorem byteLen_take_le (l : List Char) (n : Nat) : byteLen (l.take n) ≤ byteLen l := by
  conv_rhs => rw [← List.take_append_drop n l]
  rw [byteLen_append]
  omega

theorem byteLen_take_mono (l : List Char) {m n : Nat} (h : m ≤ n) :
    byteLen (l.take m) ≤ byteLen (l.take n) := by
  have : l.take m = (l.take n).take m := by
    rw [List.take_take, Nat.min_eq_left h]
  rw [this]
  exact byteLen_take_le _ _

theorem encodeChar_nl : encodeChar '\n' = [10] := by decide

theorem rlines_nil : rlines [] = [] := rfl

theorem rlines_cons_nl (rest : List Char) :
    rlines ('\n' :: rest) = [] :: rlines rest := by
  simp [rlines]

theorem rlines_cons_of_ne {c : Char} (hc : c ≠ '\n') (rest : List Char) :
    rlines (c :: rest) =
      match rlines rest with
      | [] => [[c]]
      | l :: ls => (c :: l) :: ls := by
  simp [rlines, hc]

theorem lineStart_zero (s : List Char) : lineStart s 0 = 0 := by
  cases s <;> rfl

theorem lineStart_nil (i : Nat) : lineStart [] i = 0 := by
  cases i <;> rfl

theorem lineStart_cons_nl (rest : List Char) (i : Nat) :
    lineStart ('\n' :: rest) (i + 1) = 1 + lineStart rest i := by
  simp [lineStart]

theorem lineStart_cons_of_ne {c : Char} (hc : c ≠ '\n') (rest : List Char) (i : Nat) :
    lineStart (c :: rest) (i + 1) = (encodeChar c).length + lineStart rest (i + 1) := by
  simp [lineStart, hc]

/-- Bound for the byte offsets derived from a line: the start of a line
plus the byte length of the whole line stays inside the buffer. -/
theorem lineStart_add_byteLen_le (s : List Char) :
    ∀ (i : Nat) (l : List Char), (rlines s).get? i = some l →
      lineStart s i + byteLen l ≤ byteLen s := by
  induction s with
  | nil => intro i l h; rw [rlines_nil] at h; cases i <;> simp at h
  | cons c rest ih =>
    intro i l h
    by_cases hc : c = '\n'
    · subst hc
      rw [rlines_cons_nl] at h
      cases i with
      | zero =>
        simp at h
        subst h
        simp [lineStart_zero, byteLen_nil]
      | succ i =>
        simp only [List.get?] at h
        have := ih i l h
        rw [lineStart_cons_nl, byteLen_cons, encodeChar_nl]
        simpa using by omega
    · rw [rlines_cons_of_ne hc] at h
      rcases hr : rlines rest with _ | ⟨l0, ls⟩
      · rw [hr] at h
        cases i with
        | zero =>
          simp at h
          subst h
          rw [lineStart_zero, byteLen_cons, byteLen_nil]
          rw [byteLen_cons]
          omega
        | succ i => simp [List.get?] at h
      · rw [hr] at h
        cases i with
        | zero =>
          simp at h
          subst h
          have h0 := ih 0 l0 (by rw [hr]; rfl)
          rw [lineStart_zero] at h0 ⊢
          rw [byteLen_cons, byteLen_cons]
          omega
        | succ i =>
          simp only [List.get?] at h
          have := ih (i + 1) l (by rw [hr]; exact h)
          rw [lineStart_cons_of_ne hc, byteLen_cons]
          omega

/-- Step identity: when line `i + 1` exists, it starts one newline past the
end of line `i`. -/
theorem lineStart_succ (s : List Char) :
    ∀ (i : Nat) (l : List Char), (rlines s).get? i = some l →
      i + 1 < (rlines s).length →
      lineStart s (i + 1) = lineStart s i + byteLen l + 1 := by
  induction s with
  | nil => intro i l h; rw [rlines_nil] at h; cases i <;> simp at h
  | cons c rest ih =>
    intro i l h hlen
    by_cases hc : c = '\n'
    · subst hc
      rw [rlines_cons_nl] at h hlen
      cases i with
      | zero =>
        simp at h
        subst h
        rw [lineStart_cons_nl, lineStart_zero, lineStart_zero, byteLen_nil]
      | succ i =>
        simp only [List.get?] at h
        simp only [List.length_cons] at hlen
        have := ih i l h (by omega)
        rw [lineStart_cons_nl, lineStart_cons_nl]
        omega
    · rw [rlines_cons_of_ne hc] at h hlen
      rcases hr : rlines rest with _ | ⟨l0, ls⟩
      · rw [hr] at hlen
        simp at hlen
      · rw [hr] at h hlen
        cases i with
        | zero =>
          simp at h
          subst h
          simp only [List.length_cons] at hlen
          have h1 := ih 0 l0 (by rw [hr]; rfl) (by rw [hr]; simp; omega)
          rw [lineStart_zero] at h1
          rw [lineStart_cons_of_ne hc, h1, lineStart_zero, byteLen_cons]
          omega
        | succ i =>
          simp only [List.get?] at h
          simp only [List.length_cons] at hlen
          have := ih (i + 1) l (by rw [hr]; exact h) (by rw [hr]; simp; omega)
          rw [lineStart_cons_of_ne hc, lineStart_cons_of_ne hc, this]
          omega

/-- Strict growth of line starts: a later existing line starts past the end
of an earlier one. -/
theorem lineStart_lt_of_lt (s : List Char) (i k : Nat) (l : List Char)
    (hik : i < k) (hk : k < (rlines s).length) (hi : (rlines s).get? i = some l) :
    lineStart s i + byteLen l + 1 ≤ lineStart s k := by
  induction k with
  | zero => omega
  | succ k ihk =>
    rcases Nat.lt_or_ge i k with h' | h'
    · have hk' : k < (rlines s).length := by omega
      have step := lineStart_succ s k ((rlines s).get ⟨k, hk'⟩)
        (List.get?_eq_get hk') hk
      have := ihk h' hk'
      omega
    · have : i = k := by omega
      subst this
      have step := lineStart_succ s i l hi hk
      omega

/-- Any resolved position is a valid byte offset of the buffer. -/
theorem Source.position_le (s : Source) (pos : LineColumn) (x : Nat)
    (h : s.position pos = some x) : x ≤ byteLen s.full := by
  unfold Source.position at h
  rcases hg : (s.lines.get? (pos.line - 1)) with _ | l
  · rw [hg] at h; simp at h
  · rw [hg] at h
    simp at h
    have h1 := lineStart_add_byteLen_le s.full (pos.line - 1) l hg
    have h2 := byteLen_take_le l pos.column
    omega

/-- Position resolution is monotone along the position order. -/
theorem Source.position_mono (s : Source) {p q : LineColumn} {x y : Nat}
    (hline : 1 ≤ p.line) (hle : LCle p q)
    (hx : s.position p = some x) (hy : s.position q = some y) : x ≤ y := by
  unfold Source.position at hx hy
  rcases hgp : (s.lines.get? (p.line - 1)) with _ | lp
  · rw [hgp] at hx; simp at hx
  rcases hgq : (s.lines.get? (q.line - 1)) with _ | lq
  · rw [hgq] at hy; simp at hy
  rw [hgp] at hx
  rw [hgq] at hy
  simp at hx hy
  rcases hle with hlt | ⟨heq, hcol⟩
  · have hik : p.line - 1 < q.line - 1 := by omega
    have hklen : q.line - 1 < (rlines s.full).length := by
      rcases List.get?_eq_some.mp hgq with ⟨hl, _⟩
      exact hl
    have hchain := lineStart_lt_of_lt s.full (p.line - 1) (q.line - 1) lp hik hklen hgp
    have h1 : byteLen (lp.take p.column) ≤ byteLen lp := byteLen_take_le _ _
    omega
  · have : p.line - 1 = q.line - 1 := by omega
    rw [this] at hgp hx
    rw [hgp] at hgq
    injection hgq with hlq
    subst hlq
    have := byteLen_take_mono lp hcol
    omega

/-- A resolved range lies within the buffer bounds and is well-ordered
when its span is well-formed. -/
theorem Source.rangeFor_wf (s : Source) (sp : Span) (r : ByteRange)
    (hwf : sp.WF) (h : s.rangeFor sp = some r) :
    r.start ≤ r.stop ∧ r.stop ≤ byteLen s.full := by
  unfold Source.rangeFor at h
  rcases ha : s.position sp.start with _ | a
  · rw [ha] at h; simp at h
  rcases hb : s.position sp.stop with _ | b
  · rw [ha, hb] at h; simp at h
  rw [ha, hb] at h
  simp at h
  subst h
  exact ⟨Source.position_mono s hwf.1 hwf.2 ha hb, Source.position_le s sp.stop b hb⟩

theorem allSites_nil : allSites [] = [] := rfl

theorem allSites_cons (e : String × List (Nat × ByteRange)) (locs : Locs) :
    allSites (e :: locs) = e.2 ++ allSites locs := by
  simp [allSites]

theorem allSites_pushLoc (locs : Locs) (key : String) (sites : List (Nat × ByteRange)) :
    (allSites (pushLoc locs key sites)).Perm (allSites locs ++ sites) := by
  induction locs with
  | nil => simp [pushLoc, allSites]
  | cons e rest ih =>
    obtain ⟨k, ss⟩ := e
    rcases eq_or_ne k key with hk | hk
    · subst hk
      have h1 : pushLoc ((k, ss) :: rest) k sites = (k, ss ++ sites) :: rest := by
        simp [pushLoc]
      rw [h1, allSites_cons, allSites_cons]
      show ((ss ++ sites) ++ allSites rest).Perm ((ss ++ allSites rest) ++ sites)
      rw [List.append_assoc, List.append_assoc]
      exact List.Perm.append_left _ List.perm_append_comm
    · have h1 : pushLoc ((k, ss) :: rest) key sites = (k, ss) :: pushLoc rest key sites := by
        simp [pushLoc, hk]
      rw [h1, allSites_cons, allSites_cons]
      show (ss ++ allSites (pushLoc rest key sites)).Perm ((ss ++ allSites rest) ++ sites)
      rw [List.append_assoc]
      exact List.Perm.append_left _ ih

theorem allSites_tryReplaceDocs (src : Source) (locs : Locs) (span : Span)
    (attrs : List Attr) :
    (allSites (tryReplaceDocs src locs span attrs)).Perm
      (allSites locs ++ declSites src span attrs) := by
  rcases ha : DocAlias.find attrs with _ | key
  · simp [tryReplaceDocs, declSites, ha]
  have fall : ∀ h1 : tryReplaceDocs src locs span attrs =
      (match src.position span.start with
        | some p => pushLoc locs key [(span.start.column, ⟨p, p⟩)]
        | none => pushLoc locs key []),
      ∀ h2 : declSites src span attrs = startSite src span,
      (allSites (tryReplaceDocs src locs span attrs)).Perm
        (allSites locs ++ declSites src span attrs) := by
    intro h1 h2
    rw [h1, h2]
    unfold startSite
    rcases hp : src.position span.start with _ | p
    · simpa using allSites_pushLoc locs key []
    · exact allSites_pushLoc locs key [(span.start.column, ⟨p, p⟩)]
  rcases hdc : DocComment.find attrs with _ | sp
  · exact fall (by simp [tryReplaceDocs, ha, hdc]) (by simp [declSites, ha, hdc])
  rcases hr : src.rangeFor sp with _ | r
  · exact fall (by simp [tryReplaceDocs, ha, hdc, hr]) (by simp [declSites, ha, hdc, hr])
  · have h1 : tryReplaceDocs src locs span attrs =
        pushLoc locs key [(sp.start.column, r)] := by
      simp [tryReplaceDocs, ha, hdc, hr]
    have h2 : declSites src span attrs = [(sp.start.column, r)] := by
      simp [declSites, ha, hdc, hr]
    rw [h1, h2]
    exact allSites_pushLoc locs key [(sp.start.column, r)]

/-- The multiset of sites recorded for a file is the union, in declaration
order, of the sites contributed by each declaration. -/
theorem allSites_scanFile (src : Source) (decls : List Decl) :
    (allSites (scanFile src decls)).Perm
      (decls.flatMap fun d => declSites src d.span d.attrs) := by
  suffices h : ∀ locs,
      (allSites (decls.foldl (fun locs d => tryReplaceDocs src locs d.span d.attrs) locs)).Perm
        (allSites locs ++ decls.flatMap fun d => declSites src d.span d.attrs) by
    simpa [scanFile] using h []
  induction decls with
  | nil => intro locs; simp
  | cons d ds ih =>
    intro locs
    simp only [List.foldl_cons, List.flatMap_cons]
    refine (ih _).trans ?_
    rw [← List.append_assoc]
    exact (allSites_tryReplaceDocs src locs d.span d.attrs).append_right _

/-- Shape of any site contributed by one declaration: either a replacement
site over the resolved doc-comment range, or a zero-length insertion site. -/
theorem declSites_shape (src : Source) (span : Span) (attrs : List Attr)
    (site : Nat × ByteRange) (h : site ∈ declSites src span attrs) :
    (∃ sp r, DocComment.find attrs = some sp ∧ src.rangeFor sp = some r ∧
      site = (sp.start.column, r)) ∨
    (∃ p, src.position span.start = some p ∧ site = (span.start.column, ⟨p, p⟩)) := by
  have hstart : site ∈ startSite src span →
      ∃ p, src.position span.start = some p ∧ site = (span.start.column, ⟨p, p⟩) := by
    intro hs
    unfold startSite at hs
    rcases hp : src.position span.start with _ | p
    · rw [hp] at hs; simp at hs
    · rw [hp] at hs
      simp at hs
      exact ⟨p, rfl, by simp [hs]⟩
  rcases ha : DocAlias.find attrs with _ | key
  · rw [declSites, ha] at h; simp at h
  rcases hdc : DocComment.find attrs with _ | sp
  · have : declSites src span attrs = startSite src span := by simp [declSites, ha, hdc]
    rw [this] at h
    exact Or.inr (hstart h)
  rcases hr : src.rangeFor sp with _ | r
  · have : declSites src span attrs = startSite src span := by simp [declSites, ha, hdc, hr]
    rw [this] at h
    exact Or.inr (hstart h)
  · have : declSites src span attrs = [(sp.start.column, r)] := by simp [declSites, ha, hdc, hr]
    rw [this] at h
    simp at h
    exact Or.inl ⟨sp, r, rfl, hr, by simp [h]⟩

theorem Source.rangeFor_eq_some (s : Source) (sp : Span) (r : ByteRange)
    (h : s.rangeFor sp = some r) :
    s.position sp.start = some r.start ∧ s.position sp.stop = some r.stop := by
  unfold Source.rangeFor at h
  rcases ha : s.position sp.start with _ | a
  · rw [ha] at h; simp at h
  rcases hb : s.position sp.stop with _ | b
  · rw [ha, hb] at h; simp at h
  rw [ha, hb] at h
  simp at h
  subst h
  exact ⟨rfl, rfl⟩

theorem Span.WF.one_le_stop_line {sp : Span} (h : sp.WF) : 1 ≤ sp.stop.line := by
  rcases h with ⟨h1, hlt | ⟨heq, _⟩⟩ <;> omega

theorem ByteRange.disjoint_of_empty_left {a b : ByteRange} (h : a.stop ≤ a.start) :
    a.Disjoint b :=
  (ByteRange.disjoint_iff a b).mpr (Or.inr (Or.inr (Or.inl h)))

theorem ByteRange.disjoint_of_empty_right {a b : ByteRange} (h : b.stop ≤ b.start) :
    a.Disjoint b :=
  (ByteRange.disjoint_iff a b).mpr (Or.inr (Or.inr (Or.inr h)))

theorem pairwise_of_length_le_one {α : Type} {R : α → α → Prop} :
    ∀ l : List α, l.length ≤ 1 → l.Pairwise R
  | [], _ => .nil
  | [_], _ => by simp
  | _ :: _ :: _, h => by simp at h

theorem declSites_length_le_one (src : Source) (span : Span) (attrs : List Attr) :
    (declSites src span attrs).length ≤ 1 := by
  have hstart : (startSite src span).length ≤ 1 := by
    unfold startSite
    split <;> simp
  unfold declSites
  split
  · simp
  · split
    · split
      · simp
      · exact hstart
    · exact hstart

/-- Sites contributed by two declarations with separated doc-comment spans
occupy non-overlapping byte ranges. -/
theorem declSites_disjoint (src : Source) (d1 d2 : Decl)
    (hwf1 : ∀ sp, DocComment.find d1.attrs = some sp → sp.WF)
    (hwf2 : ∀ sp, DocComment.find d2.attrs = some sp → sp.WF)
    (hsep : ∀ sp1 sp2, DocComment.find d1.attrs = some sp1 →
      DocComment.find d2.attrs = some sp2 →
      LCle sp1.stop sp2.start ∨ LCle sp2.stop sp1.start) :
    ∀ x ∈ declSites src d1.span d1.attrs, ∀ y ∈ declSites src d2.span d2.attrs,
      x.2.Disjoint y.2 := by
  intro x hx y hy
  rcases declSites_shape src d1.span d1.attrs x hx with
    ⟨sp1, r1, hf1, hr1, hx'⟩ | ⟨p, hp, hx'⟩
  · rcases declSites_shape src d2.span d2.attrs y hy with
      ⟨sp2, r2, hf2, hr2, hy'⟩ | ⟨q, hq, hy'⟩
    · subst hx'
      subst hy'
      have w1 := hwf1 sp1 hf1
      have w2 := hwf2 sp2 hf2
      obtain ⟨ha1, hb1⟩ := Source.rangeFor_eq_some src sp1 r1 hr1
      obtain ⟨ha2, hb2⟩ := Source.rangeFor_eq_some src sp2 r2 hr2
      rcases hsep sp1 sp2 hf1 hf2 with hle | hle
      · exact (ByteRange.disjoint_iff _ _).mpr
          (Or.inl (Source.position_mono src w1.one_le_stop_line hle hb1 ha2))
      · exact (ByteRange.disjoint_iff _ _).mpr
          (Or.inr (Or.inl (Source.position_mono src w2.one_le_stop_line hle hb2 ha1)))
    · subst hy'
      exact ByteRange.disjoint_of_empty_right (le_refl q)
  · subst hx'
    exact ByteRange.disjoint_of_empty_left (le_refl p)

theorem pairwise_flatMap {α β : Type} {R : β → β → Prop} {f : α → List β} {l : List α}
    (hin : ∀ a ∈ l, (f a).Pairwise R)
    (hacross : l.Pairwise fun a b => ∀ x ∈ f a, ∀ y ∈ f b, R x y) :
    (l.flatMap f).Pairwise R := by
  rw [List.flatMap_def, List.pairwise_flatten]
  constructor
  · intro l' hl'
    rcases List.mem_map.mp hl' with ⟨a, ha, rfl⟩
    exact hin a ha
  · exact List.pairwise_map.mpr hacross

/-- C1.  For every primary file the scanner's recorded sites have byte
ranges that are pairwise non-overlapping and each contained in
`[0, bufferLength]`, assuming the parser hands over well-formed doc-comment
spans that are pairwise separated across declarations. -/
theorem c1_scanned_sites_nonoverlapping_and_bounded (src : Source) (decls : List Decl)
    (hwf : ∀ d ∈ decls, ∀ sp, DocComment.find d.attrs = some sp → sp.WF)
    (hdisj : decls.Pairwise fun d1 d2 => ∀ sp1 sp2,
      DocComment.find d1.attrs = some sp1 → DocComment.find d2.attrs = some sp2 →
      LCle sp1.stop sp2.start ∨ LCle sp2.stop sp1.start) :
    (∀ site ∈ allSites (scanFile src decls),
      site.2.start ≤ site.2.stop ∧ site.2.stop ≤ byteLen src.full) ∧
    (allSites (scanFile src decls)).Pairwise (fun a b => a.2.Disjoint b.2) := by
  have hperm := allSites_scanFile src decls
  constructor
  · intro site hmem
    have hL : site ∈ decls.flatMap fun d => declSites src d.span d.attrs :=
      hperm.mem_iff.mp hmem
    obtain ⟨d, hd, hsite⟩ := List.mem_flatMap.mp hL
    rcases declSites_shape src d.span d.attrs site hsite with
      ⟨sp, r, hfind, hr, hshape⟩ | ⟨p, hp, hshape⟩
    · subst hshape
      exact Source.rangeFor_wf src sp r (hwf d hd sp hfind) hr
    · subst hshape
      exact ⟨le_refl p, Source.position_le src d.span.start p hp⟩
  · rw [List.Perm.pairwise_iff (fun h => ByteRange.disjoint_symm h) hperm]
    refine pairwise_flatMap (fun d _ => ?_) ?_
    · exact pairwise_of_length_le_one _ (declSites_length_le_one src d.span d.attrs)
    · refine List.Pairwise.imp_of_mem ?_ hdisj
      intro d1 d2 hd1 hd2 hsep
      exact declSites_disjoint src d1 d2 (hwf d1 hd1) (hwf d2 hd2) hsep

theorem c1_witness :
    (∀ site ∈ allSites (scanFile ⟨['a', 'b', '\n', 'c', 'd']⟩
        [⟨⟨⟨1, 0⟩, ⟨1, 2⟩⟩, [.docAlias "f", .docComment ⟨⟨1, 0⟩, ⟨1, 2⟩⟩]⟩,
         ⟨⟨⟨2, 0⟩, ⟨2, 2⟩⟩, [.docAlias "g", .docComment ⟨⟨2, 0⟩, ⟨2, 2⟩⟩]⟩]),
      site.2.start ≤ site.2.stop ∧
        site.2.stop ≤ byteLen (Source.mk ['a', 'b', '\n', 'c', 'd']).full) ∧
    (allSites (scanFile ⟨['a', 'b', '\n', 'c', 'd']⟩
        [⟨⟨⟨1, 0⟩, ⟨1, 2⟩⟩, [.docAlias "f", .docComment ⟨⟨1, 0⟩, ⟨1, 2⟩⟩]⟩,
         ⟨⟨⟨2, 0⟩, ⟨2, 2⟩⟩, [.docAlias "g", .docComment ⟨⟨2, 0⟩, ⟨2, 2⟩⟩]⟩])).Pairwise
      (fun a b => a.2.Disjoint b.2) :=
  c1_scanned_sites_nonoverlapping_and_bounded
    ⟨['a', 'b', '\n', 'c', 'd']⟩
    [⟨⟨⟨1, 0⟩, ⟨1, 2⟩⟩, [.docAlias "f", .docComment ⟨⟨1, 0⟩, ⟨1, 2⟩⟩]⟩,
     ⟨⟨⟨2, 0⟩, ⟨2, 2⟩⟩, [.docAlias "g", .docComment ⟨⟨2, 0⟩, ⟨2, 2⟩⟩]⟩]
    (by
      intro d hd sp hsp
      simp only [List.mem_cons, List.not_mem_nil, or_false] at hd
      rcases hd with rfl | rfl
      · have h2 : some (Span.mk ⟨1, 0⟩ ⟨1, 2⟩) = some sp := hsp
        injection h2 with h3
        subst h3
        decide
      · have h2 : some (Span.mk ⟨2, 0⟩ ⟨2, 2⟩) = some sp := hsp
        injection h2 with h3
        subst h3
        decide)
    (by
      constructor
      · intro d' hd'
        simp only [List.mem_cons, List.not_mem_nil, or_false] at hd'
        subst hd'
        intro sp1 sp2 h1 h2
        have e1 : some (Span.mk ⟨1, 0⟩ ⟨1, 2⟩) = some sp1 := h1
        have e2 : some (Span.mk ⟨2, 0⟩ ⟨2, 2⟩) = some sp2 := h2
        injection e1 with e1
        injection e2 with e2
        subst e1
        subst e2
        decide
      · constructor
        · intro d' hd'
          simp at hd'
        · exact .nil)

theorem ByteRange.sep_symm {a b : ByteRange} (h : a.Sep b) : b.Sep a :=
  h.symm

/-- Back-to-front application of a chain-ordered replacement list equals
the one-shot splice at the original offsets: edits at or after `i` never
move offsets below `i`. -/
theorem foldr_replaceRange_eq_spliceFrom (buf : List Nat) :
    ∀ (l : List (List Nat × ByteRange)) (i : Nat),
      (l.Pairwise fun a b => a.2.stop ≤ b.2.start) →
      (∀ r ∈ l, i ≤ r.2.start ∧ r.2.start ≤ r.2.stop ∧ r.2.stop ≤ buf.length) →
      l.foldr (fun r b => replaceRange b r.1 r.2.start r.2.stop) buf
        = buf.take i ++ spliceFrom buf i l := by
  intro l
  induction l with
  | nil => intro i _ _; simp [spliceFrom]
  | cons r rest ih =>
    intro i hchain hin
    rw [List.foldr_cons]
    have hr := hin r (List.mem_cons_self r rest)
    have hhead := (List.pairwise_cons.mp hchain).1
    have hin' : ∀ x ∈ rest,
        r.2.stop ≤ x.2.start ∧ x.2.start ≤ x.2.stop ∧ x.2.stop ≤ buf.length := by
      intro x hx
      exact ⟨hhead x hx, (hin x (List.mem_cons_of_mem _ hx)).2⟩
    rw [ih r.2.stop (List.pairwise_cons.mp hchain).2 hin']
    unfold replaceRange
    have hlen : (buf.take r.2.stop).length = r.2.stop := by
      rw [List.length_take]
      omega
    have htake : (buf.take r.2.stop ++ spliceFrom buf r.2.stop rest).take r.2.start
        = buf.take r.2.start := by
      rw [List.take_append_of_le_length (by omega), List.take_take,
        Nat.min_eq_left hr.2.1]
    have hdrop : (buf.take r.2.stop ++ spliceFrom buf r.2.stop rest).drop r.2.stop
        = spliceFrom buf r.2.stop rest := by
      rw [List.drop_append_of_le_length (by omega),
        List.drop_eq_nil_of_le (by omega), List.nil_append]
    rw [htake, hdrop]
    have h2 : buf.take i ++ (buf.drop i).take (r.2.start - i) = buf.take r.2.start := by
      rw [← List.take_add]
      congr 1
      omega
    rw [spliceFrom, ← h2]
    simp [List.append_assoc]

/-- C2 (amended).  Under the preconditions that the replacement ranges are
pairwise separated, have pairwise distinct starts, and lie within the
buffer, the engine's sort-ascending-then-apply-descending pass produces
exactly the one-shot application of every replacement at its offsets in
the original buffer. -/
theorem c2_backtofront_eq_oneshot (buf : List Nat) (reps : List (List Nat × ByteRange))
    (hb : ∀ r ∈ reps, r.2.start ≤ r.2.stop ∧ r.2.stop ≤ buf.length)
    (hsep : reps.Pairwise fun a b => a.2.Sep b.2)
    (hneq : reps.Pairwise fun a b => a.2.start ≠ b.2.start) :
    spliceAll buf reps = spliceFrom buf 0 (sortReps reps) := by
  have hperm : (sortReps reps).Perm reps := List.perm_insertionSort byStart reps
  have hsorted : (sortReps reps).Pairwise byStart := List.sorted_insertionSort byStart reps
  have hsep' : (sortReps reps).Pairwise fun a b => a.2.Sep b.2 :=
    (List.Perm.pairwise_iff (fun h => ByteRange.sep_symm h) hperm).mpr hsep
  have hneq' : (sortReps reps).Pairwise fun a b => a.2.start ≠ b.2.start :=
    (List.Perm.pairwise_iff (fun h => Ne.symm h) hperm).mpr hneq
  have hb' : ∀ r ∈ sortReps reps, r.2.start ≤ r.2.stop ∧ r.2.stop ≤ buf.length :=
    fun r hr => hb r (hperm.mem_iff.mp hr)
  have hchain : (sortReps reps).Pairwise fun a b => a.2.stop ≤ b.2.start := by
    refine List.Pairwise.imp_of_mem ?_ ((hsorted.and hsep').and hneq')
    intro a b ha hbmem hrel
    obtain ⟨⟨hle, hsepab⟩, hne⟩ := hrel
    rcases hsepab with h | h
    · exact h
    · have hbb := (hb' b hbmem).1
      unfold byStart at hle
      omega
  have hmain := foldr_replaceRange_eq_spliceFrom buf (sortReps reps) 0 hchain
    (fun r hr => ⟨Nat.zero_le _, hb' r hr⟩)
  unfold spliceAll
  rw [List.foldl_reverse]
  simpa using hmain

/-- C2 counterexample.  Pairwise non-overlapping ranges alone do not make
the descending-order application equal to applying every replacement at
its original offsets: a zero-length insertion at the start of a
replacement range is non-overlapping, yet the engine destroys the inserted
text (byte 200 is lost entirely) and disagrees with the one-shot splice. -/
theorem c2_counterexample :
    (List.Pairwise (fun a b => a.2.Disjoint b.2)
        [([100], ByteRange.mk 3 7), ([200], ByteRange.mk 3 3)] ∧
      List.Pairwise (fun a b => a.2.Sep b.2)
        [([100], ByteRange.mk 3 7), ([200], ByteRange.mk 3 3)] ∧
      ∀ r ∈ [([100], ByteRange.mk 3 7), ([200], ByteRange.mk 3 3)],
        r.2.start ≤ r.2.stop ∧
          r.2.stop ≤ ([0, 1, 2, 3, 4, 5, 6, 7, 8, 9] : List Nat).length) ∧
    spliceAll [0, 1, 2, 3, 4, 5, 6, 7, 8, 9]
        [([100], ByteRange.mk 3 7), ([200], ByteRange.mk 3 3)]
      = [0, 1, 2, 100, 6, 7, 8, 9] ∧
    (200 : Nat) ∉ spliceAll [0, 1, 2, 3, 4, 5, 6, 7, 8, 9]
        [([100], ByteRange.mk 3 7), ([200], ByteRange.mk 3 3)] ∧
    spliceAll [0, 1, 2, 3, 4, 5, 6, 7, 8, 9]
        [([100], ByteRange.mk 3 7), ([200], ByteRange.mk 3 3)]
      ≠ spliceFrom [0, 1, 2, 3, 4, 5, 6, 7, 8, 9] 0
          (sortReps [([100], ByteRange.mk 3 7), ([200], ByteRange.mk 3 3)]) := by
  decide

theorem c2_witness :
    ((∀ r ∈ [([100], ByteRange.mk 5 7), ([200], ByteRange.mk 1 2)],
        r.2.start ≤ r.2.stop ∧
          r.2.stop ≤ ([0, 1, 2, 3, 4, 5, 6, 7, 8, 9] : List Nat).length) ∧
      List.Pairwise (fun a b => a.2.Sep b.2)
        [([100], ByteRange.mk 5 7), ([200], ByteRange.mk 1 2)] ∧
      List.Pairwise (fun a b => a.2.start ≠ b.2.start)
        [([100], ByteRange.mk 5 7), ([200], ByteRange.mk 1 2)]) ∧
    spliceAll [0, 1, 2, 3, 4, 5, 6, 7, 8, 9]
        [([100], ByteRange.mk 5 7), ([200], ByteRange.mk 1 2)]
      = spliceFrom [0, 1, 2, 3, 4, 5, 6, 7, 8, 9] 0
          (sortReps [([100], ByteRange.mk 5 7), ([200], ByteRange.mk 1 2)]) :=
  ⟨⟨by decide, by decide, by decide⟩,
    c2_backtofront_eq_oneshot [0, 1, 2, 3, 4, 5, 6, 7, 8, 9]
      [([100], ByteRange.mk 5 7), ([200], ByteRange.mk 1 2)]
      (by decide) (by decide) (by decide)⟩

theorem joinNl_cons_of_ne (l : List Char) {ls : List (List Char)} (h : ls ≠ []) :
    joinNl (l :: ls) = l ++ '\n' :: joinNl ls := by
  match ls, h with
  | x :: xs, _ => rfl

theorem joinNl_append_single (x : List Char) :
    ∀ (L : List (List Char)), L ≠ [] → joinNl (L ++ [x]) = joinNl L ++ '\n' :: x := by
  intro L
  induction L with
  | nil => intro h; exact absurd rfl h
  | cons l L2 ih =>
    intro _
    rcases eq_or_ne L2 [] with rfl | hne
    · rfl
    · rw [List.cons_append, joinNl_cons_of_ne l (by simp [hne]),
        joinNl_cons_of_ne l hne, ih hne, List.append_assoc]
      simp

/-- Lines produced by splitting never contain a newline. -/
theorem not_nl_mem_rlines : ∀ (s : List Char), ∀ l ∈ rlines s, '\n' ∉ l := by
  intro s
  induction s with
  | nil => simp [rlines_nil]
  | cons c rest ih =>
    intro l hl
    by_cases hc : c = '\n'
    · subst hc
      rw [rlines_cons_nl] at hl
      rcases List.mem_cons.mp hl with rfl | hl
      · simp
      · exact ih l hl
    · rw [rlines_cons_of_ne hc] at hl
      rcases hr : rlines rest with _ | ⟨l0, ls⟩
      · rw [hr] at hl
        simp at hl
        subst hl
        simp [hc]
        exact fun h => hc h.symm
      · rw [hr] at hl
        rcases List.mem_cons.mp hl with rfl | hl
        · intro hmem
          rcases List.mem_cons.mp hmem with h | h
          · exact hc h.symm
          · exact ih l0 (by rw [hr]; exact List.mem_cons_self _ _) h
        · exact ih l (by rw [hr]; exact List.mem_cons_of_mem _ hl)

/-- A nonempty newline-free string is its own single line. -/
theorem rlines_of_not_nl : ∀ (l : List Char), '\n' ∉ l → l ≠ [] → rlines l = [l] := by
  intro l
  induction l with
  | nil => intro _ h; exact absurd rfl h
  | cons c rest ih =>
    intro hnl _
    have hc : c ≠ '\n' := fun h => hnl (h ▸ List.mem_cons_self c rest)
    rw [rlines_cons_of_ne hc]
    rcases eq_or_ne rest [] with rfl | hne
    · rfl
    · rw [ih (fun h => hnl (List.mem_cons_of_mem c h)) hne]

/-- Splitting after a leading newline-free line peels that line off. -/
theorem rlines_append_nl (t : List Char) :
    ∀ (l : List Char), '\n' ∉ l → rlines (l ++ '\n' :: t) = l :: rlines t := by
  intro l
  induction l with
  | nil => simp [rlines_cons_nl]
  | cons c rest ih =>
    intro hnl
    have hc : c ≠ '\n' := fun h => hnl (h ▸ List.mem_cons_self c rest)
    rw [List.cons_append, rlines_cons_of_ne hc,
      ih (fun h => hnl (List.mem_cons_of_mem c h))]

/-- Splitting a newline join whose last line is nonempty recovers exactly
the joined lines. -/
theorem rlines_joinNl_concat (x : List Char) (hx : '\n' ∉ x) (hxne : x ≠ []) :
    ∀ (L : List (List Char)), (∀ l ∈ L, '\n' ∉ l) →
      rlines (joinNl (L ++ [x])) = L ++ [x] := by
  intro L
  induction L with
  | nil => intro _; exact rlines_of_not_nl x hx hxne
  | cons l L2 ih =>
    intro hL
    rw [List.cons_append, joinNl_cons_of_ne l (by simp),
      rlines_append_nl _ l (hL l (List.mem_cons_self _ _)),
      ih fun y hy => hL y (List.mem_cons_of_mem _ hy)]

theorem enumFrom_indent (pre : List Char) :
    ∀ (ls : List (List Char)) (n : Nat),
      ((List.enumFrom (n + 1) ls).map fun p =>
        if 0 < p.1 then pre ++ p.2 else p.2) = ls.map (fun x => pre ++ x) := by
  intro ls
  induction ls with
  | nil => intro n; rfl
  | cons l ls ih =>
    intro n
    simp only [List.enumFrom, List.map_cons, ih (n + 1)]
    simp

/-- Unfolding of the reindent map: the first line is kept, later lines are
prefixed with the indent. -/
theorem reindent_eq_joinNl (column : Nat) (doc l0 : List Char) (ls : List (List Char))
    (hdoc : rlines doc = l0 :: ls) (hpos : 0 < column) :
    reindent column doc
      = joinNl (l0 :: ls.map fun l => List.replicate column ' ' ++ l)
          ++ '\n' :: List.replicate column ' ' := by
  unfold reindent
  rw [if_pos hpos, hdoc]
  congr 1
  congr 1
  simp only [List.enum]
  simp only [List.enumFrom, List.map_cons, if_neg (by omega : ¬0 < 0)]
  rw [enumFrom_indent (List.replicate column ' ') ls 0]

theorem encodeChar_space : encodeChar ' ' = [32] := by decide

theorem encodeStr_replicate_space (n : Nat) :
    encodeStr (List.replicate n ' ') = List.replicate n 32 := by
  induction n with
  | zero => rfl
  | succ n ih => rw [List.replicate_succ, encodeStr_cons, encodeChar_space,
      ih, List.replicate_succ]; rfl

/-- C3.  Reindentation law: with indent column zero a body is spliced
verbatim; with a positive indent column the first line stays unindented,
every later line gains exactly that many leading spaces, and the spliced
text ends in a newline plus exactly that many spaces, which therefore
immediately precede whatever followed the replaced range. -/
theorem c3_reindentation_law (column : Nat) (doc l0 : List Char) (ls : List (List Char))
    (hdoc : rlines doc = l0 :: ls) (hpos : 0 < column) :
    reindent 0 doc = doc ∧
    rlines (reindent column doc)
      = l0 :: (ls.map fun l => List.replicate column ' ' ++ l)
          ++ [List.replicate column ' '] ∧
    ∀ (buf : List Nat) (a b : Nat),
      replaceRange buf (encodeStr (reindent column doc)) a b
        = buf.take a
            ++ encodeStr (joinNl (l0 :: ls.map fun l => List.replicate column ' ' ++ l))
            ++ 10 :: (List.replicate column 32 ++ buf.drop b) := by
  have hsp : ('\n' : Char) ∉ List.replicate column ' ' := by
    intro h
    have := List.eq_of_mem_replicate h
    exact absurd this (by decide)
  have hspne : List.replicate column ' ' ≠ [] := by
    simp [List.replicate_eq_nil_iff]
    omega
  have hlines : ∀ l ∈ l0 :: ls.map fun l => List.replicate column ' ' ++ l, '\n' ∉ l := by
    intro l hl
    rcases List.mem_cons.mp hl with rfl | hl
    · exact not_nl_mem_rlines doc l (hdoc ▸ List.mem_cons_self _ _)
    · rcases List.mem_map.mp hl with ⟨x, hx, rfl⟩
      intro hmem
      rcases List.mem_append.mp hmem with h | h
      · exact hsp h
      · exact not_nl_mem_rlines doc x (hdoc ▸ List.mem_cons_of_mem _ hx) h
  have hre := reindent_eq_joinNl column doc l0 ls hdoc hpos
  refine ⟨by simp [reindent], ?_, ?_⟩
  · rw [hre, ← joinNl_append_single (List.replicate column ' ') _ (by simp),
      rlines_joinNl_concat (List.replicate column ' ') hsp hspne _ hlines]
  · intro buf a b
    rw [hre]
    unfold replaceRange
    rw [encodeStr_append, encodeStr_cons, encodeChar_nl, encodeStr_replicate_space]
    simp [List.append_assoc]

theorem c3_witness :
    rlines ['x', '\n', 'y'] = ['x'] :: [['y']] ∧ 0 < 2 ∧
    (reindent 0 ['x', '\n', 'y'] = ['x', '\n', 'y'] ∧
     rlines (reindent 2 ['x', '\n', 'y'])
       = ['x'] :: ([['y']].map fun l => List.replicate 2 ' ' ++ l)
           ++ [List.replicate 2 ' '] ∧
     ∀ (buf : List Nat) (a b : Nat),
       replaceRange buf (encodeStr (reindent 2 ['x', '\n', 'y'])) a b
         = buf.take a
             ++ encodeStr (joinNl (['x'] :: [['y']].map fun l => List.replicate 2 ' ' ++ l))
             ++ 10 :: (List.replicate 2 32 ++ buf.drop b)) :=
  ⟨by decide, by decide,
    c3_reindentation_law 2 ['x', '\n', 'y'] ['x'] [['y']] (by decide) (by decide)⟩

theorem lookup_pushLoc_ne (key b : String) (s : List (Nat × ByteRange)) (h : b ≠ key) :
    ∀ locs : Locs, (pushLoc locs key s).lookup b = locs.lookup b := by
  have hbk : (b == key) = false := beq_eq_false_iff_ne.mpr h
  intro locs
  induction locs with
  | nil => simp [pushLoc, List.lookup, hbk]
  | cons e rest ih =>
    obtain ⟨k, ss⟩ := e
    rcases eq_or_ne k key with rfl | hk
    · simp [pushLoc, List.lookup, hbk]
    · simp [pushLoc, hk, List.lookup, ih]

/-- When an alias is present, the scanner always just pushes some
(possibly empty) site list onto that alias's entry. -/
theorem tryReplaceDocs_eq_pushLoc (src : Source) (locs : Locs) (span : Span)
    (attrs : List Attr) (key : String) (halias : DocAlias.find attrs = some key) :
    ∃ s, tryReplaceDocs src locs span attrs = pushLoc locs key s := by
  rcases hdc : DocComment.find attrs with _ | sp
  · rcases hp : src.position span.start with _ | p
    · exact ⟨[], by simp [tryReplaceDocs, halias, hdc, hp]⟩
    · exact ⟨[(span.start.column, ⟨p, p⟩)], by simp [tryReplaceDocs, halias, hdc, hp]⟩
  · rcases hr : src.rangeFor sp with _ | r
    · rcases hp : src.position span.start with _ | p
      · exact ⟨[], by simp [tryReplaceDocs, halias, hdc, hr, hp]⟩
      · exact ⟨[(span.start.column, ⟨p, p⟩)],
          by simp [tryReplaceDocs, halias, hdc, hr, hp]⟩
    · exact ⟨[(sp.start.column, r)], by simp [tryReplaceDocs, halias, hdc, hr]⟩

/-- C4.  For a declaration carrying an alias: when it also carries a
doc-comment annotation whose span resolves, the recorded site is a
replacement site spanning exactly that comment's byte range, at the
comment's start column; when it carries no doc-comment annotation, the
recorded site is a zero-length insertion site at the declaration's own
start column. -/
theorem c4_replacement_or_insertion_site (src : Source) (locs : Locs) (span : Span)
    (attrs : List Attr) (key : String) (halias : DocAlias.find attrs = some key) :
    (∀ sp r, DocComment.find attrs = some sp → src.rangeFor sp = some r →
      tryReplaceDocs src locs span attrs = pushLoc locs key [(sp.start.column, r)]) ∧
    (DocComment.find attrs = none →
      ∀ p, src.position span.start = some p →
        tryReplaceDocs src locs span attrs
          = pushLoc locs key [(span.start.column, ⟨p, p⟩)]) := by
  constructor
  · intro sp r hsp hr
    simp [tryReplaceDocs, halias, hsp, hr]
  · intro hnone p hp
    simp [tryReplaceDocs, halias, hnone, hp]

theorem c4_witness :
    DocAlias.find [.docAlias "f", .docComment ⟨⟨1, 0⟩, ⟨1, 1⟩⟩] = some "f" ∧
    ((∀ sp r,
        DocComment.find [.docAlias "f", .docComment ⟨⟨1, 0⟩, ⟨1, 1⟩⟩] = some sp →
        (Source.mk ['a', 'b']).rangeFor sp = some r →
        tryReplaceDocs (Source.mk ['a', 'b']) [] ⟨⟨1, 0⟩, ⟨1, 1⟩⟩
            [.docAlias "f", .docComment ⟨⟨1, 0⟩, ⟨1, 1⟩⟩]
          = pushLoc [] "f" [(sp.start.column, r)]) ∧
      (DocComment.find [.docAlias "f", .docComment ⟨⟨1, 0⟩, ⟨1, 1⟩⟩] = none →
        ∀ p, (Source.mk ['a', 'b']).position (LineColumn.mk 1 0) = some p →
          tryReplaceDocs (Source.mk ['a', 'b']) [] ⟨⟨1, 0⟩, ⟨1, 1⟩⟩
              [.docAlias "f", .docComment ⟨⟨1, 0⟩, ⟨1, 1⟩⟩]
            = pushLoc [] "f" [((LineColumn.mk 1 0).column, ⟨p, p⟩)])) :=
  ⟨by decide,
    c4_replacement_or_insertion_site (Source.mk ['a', 'b']) [] ⟨⟨1, 0⟩, ⟨1, 1⟩⟩
      [.docAlias "f", .docComment ⟨⟨1, 0⟩, ⟨1, 1⟩⟩] "f" (by decide)⟩

/-- C5 counterexample.  An unresolvable doc-comment range lookup does not
just drop the site: the scanner records a fallback zero-length insertion
site at the declaration start.  Here the doc comment's span names line 5
of a one-line buffer, its range lookup fails, and a site is recorded
anyway. -/
theorem c5_counterexample :
    DocComment.find [.docAlias "f", .docComment ⟨⟨5, 0⟩, ⟨5, 1⟩⟩]
        = some ⟨⟨5, 0⟩, ⟨5, 1⟩⟩ ∧
    (Source.mk ['a', 'b']).rangeFor ⟨⟨5, 0⟩, ⟨5, 1⟩⟩ = none ∧
    tryReplaceDocs (Source.mk ['a', 'b']) [] ⟨⟨1, 0⟩, ⟨1, 1⟩⟩
        [.docAlias "f", .docComment ⟨⟨5, 0⟩, ⟨5, 1⟩⟩]
      = [("f", [(0, ⟨0, 0⟩)])] := by
  decide

/-- C5 (amended).  Unresolvable position lookups are non-fatal and local
to one declaration: if the declaration-start lookup fails (and no comment
range resolved) the site is dropped with only the empty alias entry
created; if the doc-comment range lookup fails, the scanner falls back to
a zero-length insertion site at the declaration start when that start
resolves; entries of all other aliases are untouched in every case. -/
theorem c5_failed_lookup_policy (src : Source) (locs : Locs) (span : Span)
    (attrs : List Attr) (key : String) (halias : DocAlias.find attrs = some key) :
    (∀ sp, DocComment.find attrs = some sp → src.rangeFor sp = none →
      src.position span.start = none →
      tryReplaceDocs src locs span attrs = pushLoc locs key []) ∧
    (∀ sp p, DocComment.find attrs = some sp → src.rangeFor sp = none →
      src.position span.start = some p →
      tryReplaceDocs src locs span attrs
        = pushLoc locs key [(span.start.column, ⟨p, p⟩)]) ∧
    (DocComment.find attrs = none → src.position span.start = none →
      tryReplaceDocs src locs span attrs = pushLoc locs key []) ∧
    (∀ b, b ≠ key →
      (tryReplaceDocs src locs span attrs).lookup b = locs.lookup b) := by
  refine ⟨?_, ?_, ?_, ?_⟩
  · intro sp hsp hr hp
    simp [tryReplaceDocs, halias, hsp, hr, hp]
  · intro sp p hsp hr hp
    simp [tryReplaceDocs, halias, hsp, hr, hp]
  · intro hnone hp
    simp [tryReplaceDocs, halias, hnone, hp]
  · intro b hb
    obtain ⟨s, hs⟩ := tryReplaceDocs_eq_pushLoc src locs span attrs key halias
    rw [hs]
    exact lookup_pushLoc_ne key b s hb locs

theorem c5_witness :
    DocAlias.find [.docAlias "f", .docComment ⟨⟨5, 0⟩, ⟨5, 1⟩⟩] = some "f" ∧
    ((∀ sp, DocComment.find [.docAlias "f", .docComment ⟨⟨5, 0⟩, ⟨5, 1⟩⟩] = some sp →
        (Source.mk ['a', 'b']).rangeFor sp = none →
        (Source.mk ['a', 'b']).position (Span.mk ⟨7, 0⟩ ⟨7, 1⟩).start = none →
        tryReplaceDocs (Source.mk ['a', 'b']) [("g", [])] ⟨⟨7, 0⟩, ⟨7, 1⟩⟩
            [.docAlias "f", .docComment ⟨⟨5, 0⟩, ⟨5, 1⟩⟩]
          = pushLoc [("g", [])] "f" []) ∧
      (∀ sp p, DocComment.find [.docAlias "f", .docComment ⟨⟨5, 0⟩, ⟨5, 1⟩⟩] = some sp →
        (Source.mk ['a', 'b']).rangeFor sp = none →
        (Source.mk ['a', 'b']).position (Span.mk ⟨7, 0⟩ ⟨7, 1⟩).start = some p →
        tryReplaceDocs (Source.mk ['a', 'b']) [("g", [])] ⟨⟨7, 0⟩, ⟨7, 1⟩⟩
            [.docAlias "f", .docComment ⟨⟨5, 0⟩, ⟨5, 1⟩⟩]
          = pushLoc [("g", [])] "f" [((Span.mk ⟨7, 0⟩ ⟨7, 1⟩).start.column, ⟨p, p⟩)]) ∧
      (DocComment.find [.docAlias "f", .docComment ⟨⟨5, 0⟩, ⟨5, 1⟩⟩] = none →
        (Source.mk ['a', 'b']).position (Span.mk ⟨7, 0⟩ ⟨7, 1⟩).start = none →
        tryReplaceDocs (Source.mk ['a', 'b']) [("g", [])] ⟨⟨7, 0⟩, ⟨7, 1⟩⟩
            [.docAlias "f", .docComment ⟨⟨5, 0⟩, ⟨5, 1⟩⟩]
          = pushLoc [("g", [])] "f" []) ∧
      (∀ b, b ≠ "f" →
        (tryReplaceDocs (Source.mk ['a', 'b']) [("g", [])] ⟨⟨7, 0⟩, ⟨7, 1⟩⟩
            [.docAlias "f", .docComment ⟨⟨5, 0⟩, ⟨5, 1⟩⟩]).lookup b
          = (([("g", [])] : Locs)).lookup b)) :=
  ⟨by decide,
    c5_failed_lookup_policy (Source.mk ['a', 'b']) [("g", [])] ⟨⟨7, 0⟩, ⟨7, 1⟩⟩
      [.docAlias "f", .docComment ⟨⟨5, 0⟩, ⟨5, 1⟩⟩] "f" (by decide)⟩

theorem entryReps_eq_nil_of_empty (cDocs : String → Option (List Char))
    (e : String × List (Nat × ByteRange))
    (h : ∀ doc, cDocs e.1 = some doc → doc = []) : entryReps cDocs e = [] := by
  unfold entryReps
  rcases hc : cDocs e.1 with _ | doc
  · rfl
  · rw [h doc hc]
    rfl

/-- C6.  If every alias appearing in a primary file resolves to an empty
body, the splice pass leaves the buffer byte-identical and the file is not
marked changed. -/
theorem c6_noop_when_all_unresolved (cDocs : String → Option (List Char))
    (src : List Nat) (locs : Locs)
    (h : ∀ e ∈ locs, ∀ doc, cDocs e.1 = some doc → doc = []) :
    processFile cDocs src locs = (src, false) := by
  have hreps : fileReplacements cDocs locs = [] := by
    unfold fileReplacements
    induction locs with
    | nil => rfl
    | cons e rest ih =>
      rw [List.flatMap_cons, entryReps_eq_nil_of_empty cDocs e (h e (List.mem_cons_self _ _)),
        List.nil_append]
      exact ih fun e' he' => h e' (List.mem_cons_of_mem _ he')
  have hch : changedFlag cDocs locs = false := by
    unfold changedFlag
    rw [List.any_eq_false]
    intro e he
    rcases hc : cDocs e.1 with _ | doc
    · simp
    · rw [h e he doc hc]
      simp
  unfold processFile spliceAll
  rw [hreps, hch]
  rfl

theorem c6_witness :
    (∀ e ∈ ([("a", [(0, ByteRange.mk 0 0)])] : Locs), ∀ doc,
      (fun s => if s = "a" then some ([] : List Char) else none) e.1 = some doc →
        doc = []) ∧
    processFile (fun s => if s = "a" then some ([] : List Char) else none)
        [65] [("a", [(0, ByteRange.mk 0 0)])]
      = ([65], false) :=
  ⟨by
    intro e he doc hdoc
    simp only [List.mem_cons, List.not_mem_nil, or_false] at he
    subst he
    simp at hdoc
    exact hdoc,
   c6_noop_when_all_unresolved _ [65] [("a", [(0, ByteRange.mk 0 0)])]
    (by
      intro e he doc hdoc
      simp only [List.mem_cons, List.not_mem_nil, or_false] at he
      subst he
      simp at hdoc
      exact hdoc)⟩

/-- C8 counterexample.  An alias entry whose site list is empty (both its
position lookups failed) but whose body is non-empty sets the changed flag
although no replacement exists and the buffer is untouched, so in in-place
mode the file would be rewritten although no splice occurred. -/
theorem c8_counterexample :
    fileReplacements (fun s => if s = "a" then some ['/'] else none) [("a", [])] = [] ∧
    processFile (fun s => if s = "a" then some ['/'] else none) [65] [("a", [])]
      = ([65], true) ∧
    shouldWrite true
        (processFile (fun s => if s = "a" then some ['/'] else none) [65] [("a", [])]).2
      = true := by
  refine ⟨rfl, ?_, rfl⟩
  rfl

/-- C8 (amended).  A file is marked changed iff some alias entry of its
map resolves to a non-empty body, even when that entry carries no sites
(so no splice happens); in in-place mode the file is written back iff the
changed flag is set. -/
theorem c8_changed_iff_nonempty_body (cDocs : String → Option (List Char))
    (src : List Nat) (locs : Locs) :
    ((processFile cDocs src locs).2 = true ↔
      ∃ e ∈ locs, ∃ doc, cDocs e.1 = some doc ∧ doc ≠ []) ∧
    (shouldWrite true (processFile cDocs src locs).2 = true ↔
      ∃ e ∈ locs, ∃ doc, cDocs e.1 = some doc ∧ doc ≠ []) := by
  have h : changedFlag cDocs locs = true ↔
      ∃ e ∈ locs, ∃ doc, cDocs e.1 = some doc ∧ doc ≠ [] := by
    unfold changedFlag
    rw [List.any_eq_true]
    constructor
    · rintro ⟨e, he, hp⟩
      rcases hc : cDocs e.1 with _ | doc
      · rw [hc] at hp
        simp at hp
      · rw [hc] at hp
        simp at hp
        exact ⟨e, he, doc, hc, hp⟩
    · rintro ⟨e, he, doc, hdoc, hne⟩
      refine ⟨e, he, ?_⟩
      rw [hdoc]
      simpa using hne
  exact ⟨h, by simpa [shouldWrite] using h⟩

theorem perm_any_eq {α : Type} (p : α → Bool) {l₁ l₂ : List α} (h : l₁.Perm l₂) :
    l₁.any p = l₂.any p := by
  rw [Bool.eq_iff_iff, List.any_eq_true, List.any_eq_true]
  constructor <;> rintro ⟨x, hx, hp⟩
  · exact ⟨x, h.mem_iff.mp hx, hp⟩
  · exact ⟨x, h.mem_iff.mpr hx, hp⟩

/-- Two sorted replacement lists that hold the same replacements and have
pairwise distinct range starts are identical. -/
theorem sorted_perm_eq_of_distinct_starts :
    ∀ (l₁ l₂ : List (List Nat × ByteRange)), l₁.Perm l₂ →
      l₁.Pairwise byStart → l₂.Pairwise byStart →
      (l₁.Pairwise fun a b => a.2.start ≠ b.2.start) →
      l₁ = l₂ := by
  intro l₁
  induction l₁ with
  | nil =>
    intro l₂ hp _ _ _
    rw [(hp.symm.eq_nil : l₂ = [])]
  | cons a t₁ ih =>
    intro l₂ hp hs₁ hs₂ hne
    rcases l₂ with _ | ⟨b, t₂⟩
    · exact absurd hp.eq_nil (by simp)
    have hab : a = b := by
      have ha2 : a ∈ b :: t₂ := hp.mem_iff.mp (List.mem_cons_self _ _)
      have hb1 : b ∈ a :: t₁ := hp.symm.mem_iff.mp (List.mem_cons_self _ _)
      rcases List.mem_cons.mp ha2 with h1 | h1
      · exact h1
      rcases List.mem_cons.mp hb1 with h2 | h2
      · exact h2.symm
      have e1 : byStart a b := (List.pairwise_cons.mp hs₁).1 b h2
      have e2 : byStart b a := (List.pairwise_cons.mp hs₂).1 a h1
      have e3 : a.2.start ≠ b.2.start := (List.pairwise_cons.mp hne).1 b h2
      unfold byStart at e1 e2
      omega
    subst hab
    rw [ih t₂ hp.cons_inv (List.pairwise_cons.mp hs₁).2 (List.pairwise_cons.mp hs₂).2
      (List.pairwise_cons.mp hne).2]

/-- C10.  With the alias-to-body map fixed, processing a file is
insensitive to the iteration order of its alias-to-sites map (the
replacements are sorted by range start before application, and starts are
pairwise distinct), and the per-file results are insensitive to the order
in which primary files are processed. -/
theorem c10_order_independence (cDocs : String → Option (List Char))
    (src : List Nat) (locs locs' : Locs) (hperm : locs.Perm locs')
    (hneq : (fileReplacements cDocs locs).Pairwise fun a b => a.2.start ≠ b.2.start) :
    processFile cDocs src locs = processFile cDocs src locs' ∧
    ∀ (files files' : List (List Nat × Locs)), files.Perm files' →
      (files.map fun f => processFile cDocs f.1 f.2).Perm
        (files'.map fun f => processFile cDocs f.1 f.2) := by
  constructor
  · have hrp : (fileReplacements cDocs locs).Perm (fileReplacements cDocs locs') := by
      unfold fileReplacements
      rw [List.flatMap_def, List.flatMap_def]
      exact (hperm.map _).flatten
    have hsort : sortReps (fileReplacements cDocs locs)
        = sortReps (fileReplacements cDocs locs') := by
      refine sorted_perm_eq_of_distinct_starts _ _ ?_ ?_ ?_ ?_
      · exact ((List.perm_insertionSort byStart _).trans hrp).trans
          (List.perm_insertionSort byStart _).symm
      · exact List.sorted_insertionSort byStart _
      · exact List.sorted_insertionSort byStart _
      · exact (List.Perm.pairwise_iff (fun h => Ne.symm h)
          (List.perm_insertionSort byStart _)).mpr hneq
    have hch : changedFlag cDocs locs = changedFlag cDocs locs' :=
      perm_any_eq _ hperm
    unfold processFile spliceAll
    rw [hsort, hch]
  · intro files files' hp
    exact hp.map _

theorem c10_witness :
    ([("a", [(0, ByteRange.mk 0 1)]), ("b", [(0, ByteRange.mk 2 3)])] : Locs).Perm
        [("b", [(0, ByteRange.mk 2 3)]), ("a", [(0, ByteRange.mk 0 1)])] ∧
    (fileReplacements
        (fun s => if s = "a" then some ['/', 'a']
          else if s = "b" then some ['/', 'b'] else none)
        [("a", [(0, ByteRange.mk 0 1)]), ("b", [(0, ByteRange.mk 2 3)])]).Pairwise
      (fun a b => a.2.start ≠ b.2.start) ∧
    (processFile
        (fun s => if s = "a" then some ['/', 'a']
          else if s = "b" then some ['/', 'b'] else none)
        [65, 66, 67, 68]
        [("a", [(0, ByteRange.mk 0 1)]), ("b", [(0, ByteRange.mk 2 3)])]
      = processFile
        (fun s => if s = "a" then some ['/', 'a']
          else if s = "b" then some ['/', 'b'] else none)
        [65, 66, 67, 68]
        [("b", [(0, ByteRange.mk 2 3)]), ("a", [(0, ByteRange.mk 0 1)])] ∧
     ∀ (files files' : List (List Nat × Locs)), files.Perm files' →
      (files.map fun f => processFile
        (fun s => if s = "a" then some ['/', 'a']
          else if s = "b" then some ['/', 'b'] else none) f.1 f.2).Perm
        (files'.map fun f => processFile
          (fun s => if s = "a" then some ['/', 'a']
            else if s = "b" then some ['/', 'b'] else none) f.1 f.2)) :=
  ⟨by decide, by decide,
    c10_order_independence
      (fun s => if s = "a" then some ['/', 'a']
        else if s = "b" then some ['/', 'b'] else none)
      [65, 66, 67, 68]
      [("a", [(0, ByteRange.mk 0 1)]), ("b", [(0, ByteRange.mk 2 3)])]
      [("b", [(0, ByteRange.mk 2 3)]), ("a", [(0, ByteRange.mk 0 1)])]
      (by decide) (by decide)⟩

theorem mem_mapOpt {a b : Type} (f : a → Option b) :
    ∀ (l : List a) (ys : List b), mapOpt f l = some ys →
      ∀ y ∈ ys, ∃ x ∈ l, f x = some y := by
  intro l
  induction l with
  | nil =>
    intro ys h y hy
    simp [mapOpt] at h
    subst h
    simp at hy
  | cons x xs ih =>
    intro ys h y hy
    unfold mapOpt at h
    rcases hfx : f x with _ | y0
    · rw [hfx] at h; simp at h
    rcases hrest : mapOpt f xs with _ | ys0
    · rw [hfx, hrest] at h; simp at h
    rw [hfx, hrest] at h
    simp at h
    subst h
    rcases List.mem_cons.mp hy with rfl | hy
    · exact ⟨x, List.mem_cons_self _ _, hfx⟩
    · obtain ⟨x', hx', hfx'⟩ := ih ys0 hrest y hy
      exact ⟨x', List.mem_cons_of_mem _ hx', hfx'⟩

theorem heading_not_mem_paras (ps : List (List Inline)) (level : Nat) (xs : List Inline)
    (h : MdElem.heading level xs ∈ ps.map MdElem.para) : False := by
  rcases List.mem_map.mp h with ⟨y, _, hy⟩
  exact MdElem.noConfusion hy

theorem heading_not_mem_abstract (root : XmlNode) (a : List MdElem)
    (ha : abstractElems root = some a) (level : Nat) (xs : List Inline)
    (h : MdElem.heading level xs ∈ a) : False := by
  unfold abstractElems at ha
  rcases hf : findChild root "Abstract" with _ | ab
  · rw [hf] at ha
    simp at ha
    subst ha
    simp at h
  · rw [hf] at ha
    have ha2 : (getParagraphs ab).map (·.map MdElem.para) = some a := ha
    rcases hps : getParagraphs ab with _ | ps
    · rw [hps] at ha2; simp at ha2
    · rw [hps] at ha2
      simp at ha2
      subst ha2
      exact heading_not_mem_paras ps level xs h

theorem heading_not_mem_discussions (root : XmlNode) (d : List MdElem)
    (hd : discussionElems root = some d) (level : Nat) (xs : List Inline)
    (h : MdElem.heading level xs ∈ d) : False := by
  unfold discussionElems at hd
  rcases hm : mapOpt (fun d => (getParagraphs d).map (·.map MdElem.para))
      ((childrenOf root).filter (hasTag "Discussion")) with _ | ls
  · rw [hm] at hd; simp at hd
  · rw [hm] at hd
    simp at hd
    subst hd
    rcases List.mem_flatten.mp h with ⟨l, hl, hmem⟩
    obtain ⟨x, _, hfx⟩ := mem_mapOpt _ _ ls hm l hl
    rcases hps : getParagraphs x with _ | ps
    · rw [hps] at hfx; simp at hfx
    · rw [hps] at hfx
      simp at hfx
      subst hfx
      exact heading_not_mem_paras ps level xs hmem

theorem heading_mem_parameters (root : XmlNode) (p : List MdElem)
    (hp : parametersElems root = some p) (level : Nat) (xs : List Inline)
    (h : MdElem.heading level xs ∈ p) : level = 1 ∧ xs = [Inline.str "Parameters"] := by
  unfold parametersElems at hp
  rcases hf : findChild root "Parameters" with _ | params
  · rw [hf] at hp
    simp at hp
    subst hp
    simp at h
  · rw [hf] at hp
    have hp2 : (paramItems params).map (fun items =>
        if items.isEmpty then []
        else [MdElem.heading 1 [.str "Parameters"],
              MdElem.para [.listItems items, .str "\n"]]) = some p := hp
    rcases hi : paramItems params with _ | items
    · rw [hi] at hp2; simp at hp2
    · rw [hi] at hp2
      simp at hp2
      subst hp2
      by_cases hie : items.isEmpty
      · rw [if_pos hie] at h
        simp at h
      · rw [if_neg hie] at h
        rcases List.mem_cons.mp h with heq | h
        · injection heq with h1 h2
          exact ⟨h1, h2⟩
        · rcases List.mem_cons.mp h with heq | h
          · exact absurd heq (by intro hc; exact MdElem.noConfusion hc)
          · simp at h

/-- C9 (amended).  When a structured comment has a return-value
discussion, the renderer emits the plain paragraph "Returns" (not a
heading) followed by that discussion's paragraphs, after the abstract,
the discussion sections and any parameter list; the only heading the
renderer ever writes is the Parameters heading. -/
theorem c9_returns_paragraph_after_sections (root ret : XmlNode) (elems : List MdElem)
    (hret : findChild root "ResultDiscussion" = some ret)
    (h : xmlToMarkdown root = some elems) :
    ∃ a d p ps, abstractElems root = some a ∧ discussionElems root = some d ∧
      parametersElems root = some p ∧ getParagraphs ret = some ps ∧
      elems = a ++ d ++ p ++ (MdElem.para [Inline.str "Returns"] :: ps.map MdElem.para) ∧
      ∀ level xs, MdElem.heading level xs ∈ elems →
        level = 1 ∧ xs = [Inline.str "Parameters"] := by
  unfold xmlToMarkdown at h
  rcases ha : abstractElems root with _ | a
  · rw [ha] at h; simp at h
  rcases hd : discussionElems root with _ | d
  · rw [ha, hd] at h; simp at h
  rcases hp : parametersElems root with _ | p
  · rw [ha, hd, hp] at h; simp at h
  rcases hr : returnsElems root with _ | r
  · rw [ha, hd, hp, hr] at h; simp at h
  rw [ha, hd, hp, hr] at h
  simp at h
  have hret' : ∃ ps, getParagraphs ret = some ps ∧
      r = MdElem.para [Inline.str "Returns"] :: ps.map MdElem.para := by
    unfold returnsElems at hr
    rw [hret] at hr
    have hr2 : (getParagraphs ret).map (fun ps =>
        MdElem.para [Inline.str "Returns"] :: ps.map MdElem.para) = some r := hr
    rcases hps : getParagraphs ret with _ | ps
    · rw [hps] at hr2; simp at hr2
    · rw [hps] at hr2
      simp at hr2
      exact ⟨ps, rfl, hr2.symm⟩
  obtain ⟨ps, hps, hrshape⟩ := hret'
  refine ⟨a, d, p, ps, rfl, rfl, rfl, hps, ?_, ?_⟩
  · rw [← h, hrshape]
    simp [List.append_assoc]
  · intro level xs hmem
    rw [← h, hrshape] at hmem
    rcases List.mem_append.mp hmem with hm | hm
    · exact absurd hm fun hc => heading_not_mem_abstract root a ha level xs hc
    rcases List.mem_append.mp hm with hm2 | hm2
    · exact absurd hm2 fun hc => heading_not_mem_discussions root d hd level xs hc
    rcases List.mem_append.mp hm2 with hm3 | hm3
    · exact heading_mem_parameters root p hp level xs hm3
    rcases List.mem_cons.mp hm3 with heq | hm4
    · exact absurd heq (by intro hc; exact MdElem.noConfusion hc)
    · exact absurd hm4 fun hc => heading_not_mem_paras ps level xs hc

/-- C9 counterexample.  For a comment with a return-value discussion the
renderer writes "Returns" as a plain paragraph and emits no heading at
all, refuting the claim that a "Returns" heading is emitted. -/
theorem c9_counterexample :
    xmlToMarkdown
        (.element "Function" [.element "ResultDiscussion" [.element "Para" [.text "ok"]]])
      = some [MdElem.para [.str "Returns"], MdElem.para [.str "", .str "ok"]] ∧
    (xmlToMarkdown
        (.element "Function"
          [.element "ResultDiscussion" [.element "Para" [.text "ok"]]])).map
        (fun l => l.filter isHeading)
      = some [] :=
  ⟨rfl, rfl⟩

theorem c9_witness :
    findChild
        (.element "Function"
          [.element "Abstract" [.element "Para" [.text "Does."]],
           .element "ResultDiscussion" [.element "Para" [.text "val"]]])
        "ResultDiscussion"
      = some (.element "ResultDiscussion" [.element "Para" [.text "val"]]) ∧
    xmlToMarkdown
        (.element "Function"
          [.element "Abstract" [.element "Para" [.text "Does."]],
           .element "ResultDiscussion" [.element "Para" [.text "val"]]])
      = some [MdElem.para [.str "", .str "Does."],
              MdElem.para [.str "Returns"], MdElem.para [.str "", .str "val"]] ∧
    (∃ a d p ps,
      abstractElems
          (.element "Function"
            [.element "Abstract" [.element "Para" [.text "Does."]],
             .element "ResultDiscussion" [.element "Para" [.text "val"]]])
        = some a ∧
      discussionElems
          (.element "Function"
            [.element "Abstract" [.element "Para" [.text "Does."]],
             .element "ResultDiscussion" [.element "Para" [.text "val"]]])
        = some d ∧
      parametersElems
          (.element "Function"
            [.element "Abstract" [.element "Para" [.text "Does."]],
             .element "ResultDiscussion" [.element "Para" [.text "val"]]])
        = some p ∧
      getParagraphs (.element "ResultDiscussion" [.element "Para" [.text "val"]])
        = some ps ∧
      [MdElem.para [.str "", .str "Does."],
       MdElem.para [.str "Returns"], MdElem.para [.str "", .str "val"]]
        = a ++ d ++ p ++ (MdElem.para [Inline.str "Returns"] :: ps.map MdElem.para) ∧
      ∀ level xs,
        MdElem.heading level xs ∈
          [MdElem.para [.str "", .str "Does."],
           MdElem.para [.str "Returns"], MdElem.para [.str "", .str "val"]] →
          level = 1 ∧ xs = [Inline.str "Parameters"]) :=
  ⟨rfl, rfl,
    c9_returns_paragraph_after_sections
      (.element "Function"
        [.element "Abstract" [.element "Para" [.text "Does."]],
         .element "ResultDiscussion" [.element "Para" [.text "val"]]])
      (.element "ResultDiscussion" [.element "Para" [.text "val"]])
      [MdElem.para [.str "", .str "Does."],
       MdElem.para [.str "Returns"], MdElem.para [.str "", .str "val"]]
      rfl rfl⟩

/-- A file splice pass with only empty bodies is the identity and reports
no change (helper shared by the no-op and double-run results). -/
theorem processFile_noop_of_empty (cDocs : String → Option (List Char))
    (src : List Nat) (locs : Locs)
    (h : ∀ e ∈ locs, ∀ doc, cDocs e.1 = some doc → doc = []) :
    processFile cDocs src locs = (src, false) := by
  have hreps : fileReplacements cDocs locs = [] := by
    unfold fileReplacements
    induction locs with
    | nil => rfl
    | cons e rest ih =>
      rw [List.flatMap_cons,
        entryReps_eq_nil_of_empty cDocs e (h e (List.mem_cons_self _ _)),
        List.nil_append]
      exact ih fun e' he' => h e' (List.mem_cons_of_mem _ he')
  have hch : changedFlag cDocs locs = false := by
    unfold changedFlag
    rw [List.any_eq_false]
    intro e he
    rcases hc : cDocs e.1 with _ | doc
    · simp
    · rw [h e he doc hc]
      simp
  unfold processFile spliceAll
  rw [hreps, hch]
  rfl

/-- C7 counterexample.  With the alias "f" resolving to the one-line body
"/// D", the first run turns "  fn f" into "  /// D\n  fn f", but a second
run over that output replaces the comment block it just inserted and
appends another indent-only line, so running the pipeline twice does not
reproduce the single-run output. -/
theorem c7_counterexample :
    (processFile (fun s => if s = "f" then some "/// D".toList else none)
        (encodeStr "  fn f".toList)
        (scanFile ⟨"  fn f".toList⟩ firstRunDecls)).1
      = encodeStr "  /// D\n  fn f".toList ∧
    (processFile (fun s => if s = "f" then some "/// D".toList else none)
        (encodeStr "  /// D\n  fn f".toList)
        (scanFile ⟨"  /// D\n  fn f".toList⟩ secondRunDecls)).1
      = encodeStr "  /// D\n  \n  fn f".toList ∧
    (processFile (fun s => if s = "f" then some "/// D".toList else none)
        (encodeStr "  /// D\n  fn f".toList)
        (scanFile ⟨"  /// D\n  fn f".toList⟩ secondRunDecls)).1
      ≠ encodeStr "  /// D\n  fn f".toList := by
  refine ⟨?_, ?_, ?_⟩ <;> decide

/-- C7 (amended).  Running the pipeline twice produces the single-run
content only in degenerate cases; in particular when every alias of both
scans resolves to an empty body, both passes are the identity, so the
second run reproduces the first run's output.  In general a second run
splices again at the comment block inserted by the first run and changes
the content further. -/
theorem c7_double_run_noop (cDocs : String → Option (List Char))
    (src : List Nat) (locs locs' : Locs)
    (h : ∀ e ∈ locs, ∀ doc, cDocs e.1 = some doc → doc = [])
    (h' : ∀ e ∈ locs', ∀ doc, cDocs e.1 = some doc → doc = []) :
    (processFile cDocs (processFile cDocs src locs).1 locs').1
      = (processFile cDocs src locs).1 ∧
    (processFile cDocs src locs).1 = src := by
  rw [processFile_noop_of_empty cDocs src locs h]
  rw [processFile_noop_of_empty cDocs src locs' h']
  exact ⟨rfl, rfl⟩

theorem c7_witness :
    (∀ e ∈ ([("a", [(0, ByteRange.mk 0 0)])] : Locs), ∀ doc,
      (fun _ : String => some ([] : List Char)) e.1 = some doc → doc = []) ∧
    ((processFile (fun _ : String => some ([] : List Char))
        (processFile (fun _ : String => some ([] : List Char)) [65]
          [("a", [(0, ByteRange.mk 0 0)])]).1
        [("a", [(0, ByteRange.mk 0 0)])]).1
      = (processFile (fun _ : String => some ([] : List Char)) [65]
          [("a", [(0, ByteRange.mk 0 0)])]).1 ∧
     (processFile (fun _ : String => some ([] : List Char)) [65]
        [("a", [(0, ByteRange.mk 0 0)])]).1 = [65]) :=
  ⟨by
    intro e he doc hdoc
    simp at hdoc
    exact hdoc,
   c7_double_run_noop (fun _ => some []) [65]
    [("a", [(0, ByteRange.mk 0 0)])] [("a", [(0, ByteRange.mk 0 0)])]
    (by intro e he doc hdoc; simp at hdoc; exact hdoc)
    (by intro e he doc hdoc; simp at hdoc; exact hdoc)⟩
